import Mathlib

/-!
Verification of the noise-injection and rollout-evaluation utilities of the
HetGPPO evaluation code (`utils.py` and `evaluate/evaluate_resiliance.py`).

A numpy float array is modelled as a list of rationals.  The Python code
manipulates arrays through object references, and the statement
`agent_actions_new[agent_index] += noise` mutates the referenced array
in place, so tuples of per-agent arrays are modelled as lists of references
into an explicit heap of arrays.  This captures aliasing and in-place
mutation faithfully.
-/

/-- A numpy array of floats, modelled as a list of rationals. -/
abbrev Arr := List ℚ

/-- The heap of array objects; a reference is an index into this list. -/
abbrev Heap := List Arr

/-- A Python tuple of per-agent arrays: a list of references into the heap. -/
abbrev Refs := List Nat

/-- Dereference an array in the heap. -/
def hGet (h : Heap) (r : Nat) : Arr := h.getD r []

/-- The reference stored at position `p` of a tuple. -/
def refAt (t : Refs) (p : Nat) : Nat := t.getD p 0

/-- The array value seen at position `p` of a tuple through the heap. -/
def valueAt (h : Heap) (t : Refs) (p : Nat) : Arr := hGet h (refAt t p)

/-- Elementwise `x + noise`, with one independent draw per element position:
models `x += np.random.uniform(-noise_delta, noise_delta, size=x.shape)`,
where `f k` is the draw for element `k`. -/
def addNoise : Arr → (Nat → ℚ) → Arr
  | [], _ => []
  | v :: t, f => (v + f 0) :: addNoise t (fun k => f (k + 1))

/-- `np.clip` for a scalar: `np.clip(x, lo, hi) = min(hi, max(x, lo))`. -/
def npclip (x lo hi : ℚ) : ℚ := min hi (max x lo)

/-- `np.clip` of a whole array to `[-b, b]`. -/
def clipArr (a : Arr) (b : ℚ) : Arr := a.map (fun v => npclip v (-b) b)

/-- The `InjectMode` enum of `utils.py`. -/
inductive InjectMode
  | ACTION_NOISE
  | OBS_NOISE
deriving DecidableEq

/-- `InjectMode.is_noise`: returns True when the mode is OBS_NOISE or
ACTION_NOISE, else False. -/
def InjectMode.is_noise (m : InjectMode) : Bool :=
  if m = InjectMode.OBS_NOISE ∨ m = InjectMode.ACTION_NOISE then true else false

/-- `InjectMode.is_obs`: returns True when the mode is OBS_NOISE, else False. -/
def InjectMode.is_obs (m : InjectMode) : Bool :=
  if m = InjectMode.OBS_NOISE then true else false

/-- `InjectMode.is_action`: returns True when the mode is ACTION_NOISE,
else False. -/
def InjectMode.is_action (m : InjectMode) : Bool :=
  if m = InjectMode.ACTION_NOISE then true else false

/-- Errors the injectors can raise: the failed `assert` on the target-set
size (called `InvalidTargetSet` in the spec), and a Python `IndexError`
from indexing a position outside the tuple. -/
inductive InjectError
  | invalidTargetSet
  | indexError
deriving DecidableEq

deriving instance DecidableEq for Except

/-- The `for agent_index in agent_indices` loop body of
`EvaluationUtils.__inject_noise_in_action`:
`agent_actions_new[agent_index] += noise` mutates the referenced array in
place (numpy in-place add on the aliased object), then
`agent_actions_new[agent_index] = np.clip(..., -u_range, u_range)` binds the
position to a freshly allocated clipped array. -/
def actionGo (noise_draw : Nat → Nat → ℚ) (u_range : Nat → ℚ) :
    Heap → Refs → List Nat → Heap × Except InjectError Refs
  | heap, acts, [] => (heap, Except.ok acts)
  | heap, acts, i :: rest =>
    if i < acts.length then
      let r := refAt acts i
      let noised := addNoise (hGet heap r) (noise_draw i)
      let heap1 := heap.set r noised
      let clipped := clipArr noised (u_range i)
      actionGo noise_draw u_range (heap1 ++ [clipped]) (acts.set i heap1.length) rest
    else (heap, Except.error InjectError.indexError)

/-- `EvaluationUtils.__inject_noise_in_action`: asserts
`len(agent_indices) <= len(agent_actions)`, copies the tuple into a fresh
list of the same references, runs the injection loop, returns the new tuple.
`u_range i` models `env.env.agents[i].u_range`.  The final heap is returned
alongside the outcome so mutation is observable. -/
def inject_noise_in_action (heap : Heap) (agent_actions : Refs)
    (agent_indices : List Nat) (noise_draw : Nat → Nat → ℚ)
    (u_range : Nat → ℚ) : Heap × Except InjectError Refs :=
  if agent_indices.length ≤ agent_actions.length then
    actionGo noise_draw u_range heap agent_actions agent_indices
  else (heap, Except.error InjectError.invalidTargetSet)

/-- The loop body of `EvaluationUtils.__inject_noise_in_observation`:
`observations_new[agent_index] += noise` mutates the referenced array in
place; the position keeps the same reference. -/
def obsGo (noise_draw : Nat → Nat → ℚ) :
    Heap → Refs → List Nat → Heap × Except InjectError Refs
  | heap, obs, [] => (heap, Except.ok obs)
  | heap, obs, i :: rest =>
    if i < obs.length then
      let r := refAt obs i
      obsGo noise_draw (heap.set r (addNoise (hGet heap r) (noise_draw i))) obs rest
    else (heap, Except.error InjectError.indexError)

/-- `EvaluationUtils.__inject_noise_in_observation`: asserts
`len(agent_indices) <= len(observations)`, then adds noise in place to each
targeted entry and returns the tuple of (unchanged) references. -/
def inject_noise_in_observation (heap : Heap) (observations : Refs)
    (agent_indices : List Nat) (noise_draw : Nat → Nat → ℚ) :
    Heap × Except InjectError Refs :=
  if agent_indices.length ≤ observations.length then
    obsGo noise_draw heap observations agent_indices
  else (heap, Except.error InjectError.invalidTargetSet)

/-- `EvaluationUtils.get_inject_function`: dispatches on the mode and
returns the injection function (`inject_function` closure). -/
def get_inject_function (inject_mode : InjectMode) (noise_draw : Nat → Nat → ℚ)
    (agents_to_inject : List Nat) (u_range : Nat → ℚ) :
    Heap → Refs → Heap × Except InjectError Refs :=
  fun heap x =>
    match inject_mode with
    | InjectMode.ACTION_NOISE =>
        inject_noise_in_action heap x agents_to_inject noise_draw u_range
    | InjectMode.OBS_NOISE =>
        inject_noise_in_observation heap x agents_to_inject noise_draw

/-! ### Basic list lemmas used by the heap model -/

theorem getD_set_self {α : Type} (l : List α) (n : Nat) (a d : α)
    (hn : n < l.length) : (l.set n a).getD n d = a := by
  induction l generalizing n with
  | nil => simp at hn
  | cons x t ih =>
    cases n with
    | zero => simp
    | succ m => simpa using ih m (by simpa using hn)

theorem getD_set_ne {α : Type} (l : List α) (n p : Nat) (a d : α)
    (hp : p ≠ n) : (l.set n a).getD p d = l.getD p d := by
  induction l generalizing n p with
  | nil => simp
  | cons x t ih =>
    cases n with
    | zero =>
      cases p with
      | zero => exact absurd rfl hp
      | succ q => simp
    | succ m =>
      cases p with
      | zero => simp
      | succ q => simpa using ih m q (by omega)

theorem getD_append_lt {α : Type} (l l' : List α) (p : Nat) (d : α)
    (hp : p < l.length) : (l ++ l').getD p d = l.getD p d := by
  induction l generalizing p with
  | nil => simp at hp
  | cons x t ih =>
    cases p with
    | zero => simp
    | succ q => simpa using ih q (by simpa using hp)

theorem getD_append_len {α : Type} (l : List α) (a : α) (d : α) :
    (l ++ [a]).getD l.length d = a := by
  induction l with
  | nil => simp
  | cons x t ih => simp [ih]

theorem set_getD_self {α : Type} (l : List α) (n : Nat) (d : α) :
    l.set n (l.getD n d) = l := by
  induction l generalizing n with
  | nil => simp
  | cons x t ih =>
    cases n with
    | zero => simp
    | succ m => simpa using ih m

theorem getD_map_lt {α β : Type} (f : α → β) (l : List α) (p : Nat)
    (d : α) (d' : β) (hp : p < l.length) :
    (l.map f).getD p d' = f (l.getD p d) := by
  induction l generalizing p with
  | nil => simp at hp
  | cons x t ih =>
    cases p with
    | zero => simp
    | succ q => simpa using ih q (by simpa using hp)

/-! ### What a successful run of each injection loop does -/

/-- Characterization of a successful `__inject_noise_in_observation` loop:
the tuple of references is returned unchanged; every visited index is in
range; the heap is untouched at any reference not aliased with a targeted
entry; and, when the targeted indices are distinct, mutually non-aliased and
backed by valid references, each targeted entry ends as its original value
plus that agent's noise draw. -/
theorem obsGo_spec (noise_draw : Nat → Nat → ℚ) :
    ∀ (rest : List Nat) (heap heap' : Heap) (obs obs' : Refs),
    obsGo noise_draw heap obs rest = (heap', Except.ok obs') →
    obs' = obs ∧
    (∀ q ∈ rest, q < obs.length) ∧
    (∀ s : Nat, (∀ q ∈ rest, refAt obs q ≠ s) → hGet heap' s = hGet heap s) ∧
    (rest.Nodup →
      (∀ q1 ∈ rest, ∀ q2 ∈ rest, q1 ≠ q2 → refAt obs q1 ≠ refAt obs q2) →
      (∀ q ∈ rest, refAt obs q < heap.length) →
      ∀ p ∈ rest,
        hGet heap' (refAt obs p) =
          addNoise (hGet heap (refAt obs p)) (noise_draw p)) := by
  intro rest
  induction rest with
  | nil =>
    intro heap heap' obs obs' h
    simp only [obsGo, Prod.mk.injEq, Except.ok.injEq] at h
    obtain ⟨rfl, rfl⟩ := h
    refine ⟨rfl, by simp, fun s _ => rfl, ?_⟩
    intro _ _ _ p hp
    simp at hp
  | cons i rest ih =>
    intro heap heap' obs obs' h
    simp only [obsGo] at h
    by_cases hi : i < obs.length
    · rw [if_pos hi] at h
      set heap1 :=
        heap.set (refAt obs i)
          (addNoise (hGet heap (refAt obs i)) (noise_draw i)) with hheap1
      obtain ⟨hB, hA, hC, hD⟩ := ih heap1 heap' obs obs' h
      have hlen1 : heap1.length = heap.length := by
        simp [hheap1]
      refine ⟨hB, ?_, ?_, ?_⟩
      · intro q hq
        rcases List.mem_cons.mp hq with rfl | hq'
        · exact hi
        · exact hA q hq'
      · intro s hs
        have h1 : hGet heap' s = hGet heap1 s :=
          hC s (fun q hq => hs q (List.mem_cons_of_mem i hq))
        have h2 : hGet heap1 s = hGet heap s := by
          apply getD_set_ne
          exact fun he => (hs i (List.mem_cons_self i rest)) he.symm
        rw [h1, h2]
      · intro hnd hpair hval p hp
        have hnd' := List.nodup_cons.mp hnd
        rcases List.mem_cons.mp hp with rfl | hp'
        · have hstab : hGet heap' (refAt obs p) = hGet heap1 (refAt obs p) := by
            apply hC
            intro q hq
            refine hpair q (List.mem_cons_of_mem p hq) p (List.mem_cons_self p rest) ?_
            exact fun he => hnd'.1 (he ▸ hq)
          have hset :
              hGet heap1 (refAt obs p) =
                addNoise (hGet heap (refAt obs p)) (noise_draw p) := by
            apply getD_set_self
            exact hval p (List.mem_cons_self p rest)
          rw [hstab, hset]
        · have hmain :=
            hD hnd'.2
              (fun q1 hq1 q2 hq2 hne =>
                hpair q1 (List.mem_cons_of_mem i hq1) q2 (List.mem_cons_of_mem i hq2) hne)
              (fun q hq => by
                rw [hlen1]
                exact hval q (List.mem_cons_of_mem i hq))
              p hp'
          rw [hmain]
          congr 1
          apply getD_set_ne
          refine hpair p (List.mem_cons_of_mem i hp') i (List.mem_cons_self i rest) ?_
          exact fun he => hnd'.1 (he ▸ hp')
    · rw [if_neg hi] at h
      simp at h

/-- Characterization of a successful `__inject_noise_in_action` loop, under
a well-formed starting state (all references valid and pairwise distinct)
and a duplicate-free target list (targets come from a Python set):
lengths are preserved; every visited index is in range; a non-targeted
position keeps its reference and its value; and a targeted position ends
bound to a fresh array holding its original value plus noise, clipped to
that agent's control range. -/
theorem actionGo_spec (noise_draw : Nat → Nat → ℚ) (u_range : Nat → ℚ) :
    ∀ (rest : List Nat) (heap heap' : Heap) (acts acts' : Refs),
    (∀ p, p < acts.length → refAt acts p < heap.length) →
    (∀ p q, p < acts.length → q < acts.length → p ≠ q →
      refAt acts p ≠ refAt acts q) →
    rest.Nodup →
    actionGo noise_draw u_range heap acts rest = (heap', Except.ok acts') →
    acts'.length = acts.length ∧
    (∀ q ∈ rest, q < acts.length) ∧
    (∀ p, p < acts.length → p ∉ rest →
      refAt acts' p = refAt acts p ∧
      hGet heap' (refAt acts p) = hGet heap (refAt acts p)) ∧
    (∀ p ∈ rest,
      valueAt heap' acts' p =
        clipArr (addNoise (valueAt heap acts p) (noise_draw p)) (u_range p)) := by
  intro rest
  induction rest with
  | nil =>
    intro heap heap' acts acts' _ _ _ h
    simp only [actionGo, Prod.mk.injEq, Except.ok.injEq] at h
    obtain ⟨rfl, rfl⟩ := h
    refine ⟨rfl, by simp, fun p _ _ => ⟨rfl, rfl⟩, ?_⟩
    intro p hp
    simp at hp
  | cons i rest ih =>
    intro heap heap' acts acts' hV hN hnd h
    simp only [actionGo] at h
    by_cases hi : i < acts.length
    · rw [if_pos hi] at h
      have hnd' := List.nodup_cons.mp hnd
      set r := refAt acts i with hr
      set noised := addNoise (hGet heap r) (noise_draw i) with hnoised
      set heap1 := heap.set r noised with hheap1
      set clipped := clipArr noised (u_range i) with hclipped
      set heap2 := heap1 ++ [clipped] with hheap2
      set acts1 := acts.set i heap1.length with hacts1
      have hlen1 : heap1.length = heap.length := by simp [hheap1]
      have hlen2 : heap2.length = heap.length + 1 := by simp [hheap2, hlen1]
      have hacts1len : acts1.length = acts.length := by simp [hacts1]
      have hrefi : refAt acts1 i = heap.length := by
        rw [hacts1, refAt, getD_set_self _ _ _ _ hi, hlen1]
      have hrefne : ∀ p, p ≠ i → refAt acts1 p = refAt acts p := by
        intro p hp
        rw [hacts1, refAt, getD_set_ne _ _ _ _ _ hp]
        rfl
      have hV1 : ∀ p, p < acts1.length → refAt acts1 p < heap2.length := by
        intro p hp
        rw [hacts1len] at hp
        by_cases hpi : p = i
        · subst hpi
          rw [hrefi, hlen2]
          omega
        · rw [hrefne p hpi, hlen2]
          exact Nat.lt_succ_of_lt (hV p hp)
      have hN1 : ∀ p q, p < acts1.length → q < acts1.length → p ≠ q →
          refAt acts1 p ≠ refAt acts1 q := by
        intro p q hp hq hpq
        rw [hacts1len] at hp hq
        by_cases hpi : p = i
        · subst hpi
          rw [hrefi, hrefne q (fun he => hpq he.symm)]
          exact fun he => absurd he.symm (Nat.ne_of_lt (hV q hq))
        · by_cases hqi : q = i
          · subst hqi
            rw [hrefi, hrefne p hpi]
            exact Nat.ne_of_lt (hV p hp)
          · rw [hrefne p hpi, hrefne q hqi]
            exact hN p q hp hq hpq
      obtain ⟨hL, hA, hC, hD⟩ := ih heap2 heap' acts1 acts' hV1 hN1 hnd'.2 h
      -- heap2 agrees with heap at any reference of a position other than i
      have hstay : ∀ p, p < acts.length → p ≠ i →
          hGet heap2 (refAt acts p) = hGet heap (refAt acts p) := by
        intro p hp hpne
        have h1 : hGet heap2 (refAt acts p) = hGet heap1 (refAt acts p) := by
          rw [hheap2, hGet, hGet, getD_append_lt]
          rw [hlen1]
          exact hV p hp
        have h2 : hGet heap1 (refAt acts p) = hGet heap (refAt acts p) := by
          rw [hheap1, hGet, hGet, getD_set_ne]
          exact hN p i hp hi hpne
        rw [h1, h2]
      refine ⟨by rw [hL, hacts1len], ?_, ?_, ?_⟩
      · intro q hq
        rcases List.mem_cons.mp hq with rfl | hq'
        · exact hi
        · rw [← hacts1len]
          exact hA q hq'
      · intro p hp hpnot
        have hpne : p ≠ i := fun he => hpnot (he ▸ List.mem_cons_self i rest)
        have hpnr : p ∉ rest := fun hm => hpnot (List.mem_cons_of_mem i hm)
        obtain ⟨hc1, hc2⟩ := hC p (by rw [hacts1len]; exact hp) hpnr
        constructor
        · rw [hc1, hrefne p hpne]
        · rw [← hrefne p hpne, hc2, hrefne p hpne]
          exact hstay p hp hpne
      · intro p hp
        rcases List.mem_cons.mp hp with rfl | hp'
        · obtain ⟨hc1, hc2⟩ := hC p (by rw [hacts1len]; exact hi) hnd'.1
          have hfresh : hGet heap2 (refAt acts1 p) = clipped := by
            rw [hrefi, hheap2, hGet, ← hlen1, getD_append_len]
          rw [valueAt, hc1, hc2, hfresh, hclipped, hnoised, hr]
          rfl
        · have hpne : p ≠ i := fun he => hnd'.1 (he ▸ hp')
          have hplt : p < acts.length := by
            rw [← hacts1len]
            exact hA p hp'
          have hmain := hD p hp'
          rw [hmain, valueAt, hrefne p hpne, hstay p hplt hpne]
          rfl
    · rw [if_neg hi] at h
      simp at h

/-! ### Auxiliary facts about noise, clipping and the assert -/

theorem addNoise_zero (a : Arr) (f : Nat → ℚ) (hf : ∀ k, f k = 0) :
    addNoise a f = a := by
  induction a generalizing f with
  | nil => rfl
  | cons v t ih => simp [addNoise, hf 0, ih (fun k => f (k + 1)) (fun k => hf (k + 1))]

theorem clipArr_bounds (a : Arr) (b : ℚ) (hb : 0 ≤ b) :
    ∀ v ∈ clipArr a b, -b ≤ v ∧ v ≤ b := by
  intro v hv
  rw [clipArr] at hv
  obtain ⟨w, _, rfl⟩ := List.mem_map.mp hv
  constructor
  · exact le_min (by linarith) (le_max_right w (-b))
  · exact min_le_left b _

theorem clipArr_id (a : Arr) (b : ℚ) (ha : ∀ v ∈ a, -b ≤ v ∧ v ≤ b) :
    clipArr a b = a := by
  induction a with
  | nil => rfl
  | cons v t ih =>
    have hv := ha v (List.mem_cons_self v t)
    have hnp : npclip v (-b) b = v := by
      rw [npclip, max_eq_left hv.1, min_eq_right hv.2]
    show npclip v (-b) b :: clipArr t b = v :: t
    rw [hnp, ih (fun w hw => ha w (List.mem_cons_of_mem v hw))]

theorem actionGo_no_invalid (noise_draw : Nat → Nat → ℚ) (u_range : Nat → ℚ) :
    ∀ (rest : List Nat) (heap : Heap) (acts : Refs),
    (actionGo noise_draw u_range heap acts rest).2 ≠
      Except.error InjectError.invalidTargetSet := by
  intro rest
  induction rest with
  | nil => intro heap acts; simp [actionGo]
  | cons i rest ih =>
    intro heap acts
    simp only [actionGo]
    by_cases hi : i < acts.length
    · rw [if_pos hi]
      exact ih _ _
    · rw [if_neg hi]
      simp

theorem obsGo_no_invalid (noise_draw : Nat → Nat → ℚ) :
    ∀ (rest : List Nat) (heap : Heap) (obs : Refs),
    (obsGo noise_draw heap obs rest).2 ≠
      Except.error InjectError.invalidTargetSet := by
  intro rest
  induction rest with
  | nil => intro heap obs; simp [obsGo]
  | cons i rest ih =>
    intro heap obs
    simp only [obsGo]
    by_cases hi : i < obs.length
    · rw [if_pos hi]
      exact ih _ _
    · rw [if_neg hi]
      simp

theorem obsGo_zero (noise_draw : Nat → Nat → ℚ)
    (hz : ∀ i k, noise_draw i k = 0) :
    ∀ (rest : List Nat) (heap : Heap) (obs : Refs),
    (∀ q ∈ rest, q < obs.length) →
    obsGo noise_draw heap obs rest = (heap, Except.ok obs) := by
  intro rest
  induction rest with
  | nil => intro heap obs _; rfl
  | cons i rest ih =>
    intro heap obs hq
    have hi : i < obs.length := hq i (List.mem_cons_self i rest)
    simp only [obsGo, if_pos hi]
    rw [addNoise_zero _ _ (hz i), hGet, set_getD_self]
    exact ih heap obs (fun q hqq => hq q (List.mem_cons_of_mem i hqq))

/-! ### Claim theorems about the Injector -/

/-- C10: the `InjectMode` predicates are total pure functions with exactly
this characterization: `is_noise` is True on every mode, `is_obs` holds
exactly on OBS_NOISE, `is_action` exactly on ACTION_NOISE, so the two are
mutually exclusive and jointly cover every mode. -/
theorem c10_inject_mode_predicates :
    (∀ m : InjectMode, m.is_noise = true) ∧
    (∀ m : InjectMode, m.is_obs = true ↔ m = InjectMode.OBS_NOISE) ∧
    (∀ m : InjectMode, m.is_action = true ↔ m = InjectMode.ACTION_NOISE) ∧
    (∀ m : InjectMode, ¬(m.is_obs = true ∧ m.is_action = true)) ∧
    (∀ m : InjectMode, m.is_obs = true ∨ m.is_action = true) := by
  refine ⟨?_, ?_, ?_, ?_, ?_⟩ <;> intro m <;> cases m <;>
    simp [InjectMode.is_noise, InjectMode.is_obs, InjectMode.is_action]

/-- C1: refuted by the code — the injection function built by
`get_inject_function` mutates the input tuple in place.  Evaluated at the
failing input: a single agent whose observation is the array `[0]` (heap
cell 0), target set `{0}`, magnitude 1 with draw `+1`, observation-noise
mode.  The call succeeds and returns a tuple, but afterwards the array the
INPUT tuple references holds `[1]`, not its pre-call value `[0]` (the numpy
in-place `+=` wrote through the shared reference). -/
theorem c1_input_mutated_at_failing_input :
    valueAt [[0]] [0] 0 = [0] ∧
    (get_inject_function InjectMode.OBS_NOISE (fun _ _ => 1) [0] (fun _ => 1)
        [[0]] [0]).2 = Except.ok [0] ∧
    valueAt (get_inject_function InjectMode.OBS_NOISE (fun _ _ => 1) [0]
        (fun _ => 1) [[0]] [0]).1 [0] 0 = [1] ∧
    ([1] : Arr) ≠ [0] := by
  refine ⟨by norm_num [valueAt, hGet, refAt], ?_, ?_, by norm_num⟩ <;>
    norm_num [get_inject_function, inject_noise_in_observation, obsGo,
      addNoise, valueAt, hGet, refAt]

/-- C2 counterexample: the claim quantifies over EVERY input tuple, but for
an input tuple whose two positions alias the same array object (heap cell
0 holding `[0]`), targeting only index 0 (a valid target set: 1 target,
2 entries) with draw `+1` in observation mode, the returned tuple's entry
at the non-targeted index 1 reads `[1]`, not its pre-call value `[0]`:
the in-place mutation leaks through the alias. -/
theorem c2_aliased_counterexample :
    ([0] : List Nat).length ≤ ([0, 0] : Refs).length ∧
    valueAt [[0]] [0, 0] 1 = [0] ∧
    (inject_noise_in_observation [[0]] [0, 0] [0] (fun _ _ => 1)).2 =
      Except.ok [0, 0] ∧
    valueAt (inject_noise_in_observation [[0]] [0, 0] [0] (fun _ _ => 1)).1
      [0, 0] 1 = [1] ∧
    ([1] : Arr) ≠ [0] := by
  refine ⟨by norm_num, by norm_num [valueAt, hGet, refAt], ?_, ?_, by norm_num⟩ <;>
    norm_num [inject_noise_in_observation, obsGo, addNoise, valueAt, hGet, refAt]

/-- C2 (amended): provided the input tuple's entries are pairwise
non-aliased arrays backed by valid references — as holds for the per-agent
tuples the environment and the policy produce — every entry of the returned
tuple at a non-targeted index keeps its reference and its pre-call value, in
either injection mode (the target list is duplicate-free, coming from a
Python set). -/
theorem c2_untargeted_entries_unchanged
    (inject_mode : InjectMode) (noise_draw : Nat → Nat → ℚ) (u_range : Nat → ℚ)
    (heap heap' : Heap) (x x' : Refs) (agents_to_inject : List Nat)
    (hV : ∀ p, p < x.length → refAt x p < heap.length)
    (hN : ∀ p q, p < x.length → q < x.length → p ≠ q → refAt x p ≠ refAt x q)
    (hnd : agents_to_inject.Nodup)
    (hok : get_inject_function inject_mode noise_draw agents_to_inject u_range
        heap x = (heap', Except.ok x'))
    (p : Nat) (hp : p < x.length) (hpt : p ∉ agents_to_inject) :
    refAt x' p = refAt x p ∧ valueAt heap' x' p = valueAt heap x p := by
  cases inject_mode with
  | ACTION_NOISE =>
    simp only [get_inject_function, inject_noise_in_action] at hok
    by_cases hle : agents_to_inject.length ≤ x.length
    · rw [if_pos hle] at hok
      obtain ⟨_, _, hC, _⟩ := actionGo_spec noise_draw u_range
        agents_to_inject heap heap' x x' hV hN hnd hok
      obtain ⟨hc1, hc2⟩ := hC p hp hpt
      exact ⟨hc1, by rw [valueAt, hc1]; exact hc2⟩
    · rw [if_neg hle] at hok
      simp at hok
  | OBS_NOISE =>
    simp only [get_inject_function, inject_noise_in_observation] at hok
    by_cases hle : agents_to_inject.length ≤ x.length
    · rw [if_pos hle] at hok
      obtain ⟨hB, hA, hC, _⟩ := obsGo_spec noise_draw
        agents_to_inject heap heap' x x' hok
      subst hB
      refine ⟨rfl, ?_⟩
      rw [valueAt, valueAt]
      apply hC
      intro q hq
      exact hN q p (hA q hq) hp (fun he => hpt (he ▸ hq))
    · rw [if_neg hle] at hok
      simp at hok

/-- Witness for C2 (amended): two agents with distinct observation arrays
`[5]` and `[7]`, target set `{0}`, draw `+1`: the non-targeted entry 1 keeps
its reference and its value `[7]`. -/
theorem c2_witness :
    refAt [0, 1] 1 = refAt ([0, 1] : Refs) 1 ∧
    valueAt [[6], [7]] [0, 1] 1 = valueAt [[5], [7]] [0, 1] 1 :=
  c2_untargeted_entries_unchanged InjectMode.OBS_NOISE (fun _ _ => 1)
    (fun _ => 1) [[5], [7]] [[6], [7]] [0, 1] [0, 1] [0]
    (by intro p hp; simp at hp; interval_cases p <;> decide)
    (by intro p q hp hq hne; simp at hp hq; interval_cases p <;>
      interval_cases q <;> revert hne <;> decide)
    (by decide)
    (by norm_num [get_inject_function, inject_noise_in_observation, obsGo,
      addNoise, hGet, refAt])
    1 (by decide) (by decide)

/-- C3: in action-noise mode, for EVERY noise draw (also draws whose
addition leaves the control range) and every targeted agent `i`, every
element of the returned action entry for agent `i` lies within
`[-u_range i, u_range i]`, the control-range limit the environment supplies
(a nonnegative per-agent bound), under the well-formed tuple conditions
(valid, pairwise non-aliased references; duplicate-free target set). -/
theorem c3_action_clamped
    (noise_draw : Nat → Nat → ℚ) (u_range : Nat → ℚ)
    (heap heap' : Heap) (acts acts' : Refs) (agents_to_inject : List Nat)
    (hV : ∀ p, p < acts.length → refAt acts p < heap.length)
    (hN : ∀ p q, p < acts.length → q < acts.length → p ≠ q →
      refAt acts p ≠ refAt acts q)
    (hnd : agents_to_inject.Nodup)
    (hb : ∀ i ∈ agents_to_inject, 0 ≤ u_range i)
    (hok : get_inject_function InjectMode.ACTION_NOISE noise_draw
        agents_to_inject u_range heap acts = (heap', Except.ok acts'))
    (i : Nat) (hi : i ∈ agents_to_inject) :
    ∀ v ∈ valueAt heap' acts' i, -(u_range i) ≤ v ∧ v ≤ u_range i := by
  simp only [get_inject_function, inject_noise_in_action] at hok
  by_cases hle : agents_to_inject.length ≤ acts.length
  · rw [if_pos hle] at hok
    obtain ⟨_, _, _, hD⟩ := actionGo_spec noise_draw u_range
      agents_to_inject heap heap' acts acts' hV hN hnd hok
    rw [hD i hi]
    exact clipArr_bounds _ _ (hb i hi)
  · rw [if_neg hle] at hok
    simp at hok

/-- Witness for C3: one agent with action `[10]`, control bound 1, noise
draw `+100` (far outside the range): the returned entry is `[1]`, within
`[-1, 1]`. -/
theorem c3_witness : -(1 : ℚ) ≤ 1 ∧ (1 : ℚ) ≤ 1 :=
  c3_action_clamped (fun _ _ => 100) (fun _ => 1) [[10]] [[110], [1]]
    [0] [1] [0]
    (by intro p hp; simp at hp; subst hp; decide)
    (by intro p q hp hq hne; simp at hp hq; omega)
    (by decide) (by norm_num)
    (by norm_num [get_inject_function, inject_noise_in_action, actionGo,
      addNoise, clipArr, npclip, hGet, refAt])
    0 (by decide) 1 (by norm_num [valueAt, hGet, refAt])

/-- C4 counterexample: for noise magnitude zero (all draws are 0, as
`np.random.uniform(-0, 0)` is identically 0) the claim fails in
action-noise mode: one agent whose action is `[2]`, control bound 1, valid
target set `{0}` — the injector returns the entry `[1]` (zero noise added,
then clamped), not a tuple equal to its input. -/
theorem c4_zero_noise_counterexample :
    ([0] : List Nat).length ≤ ([0] : Refs).length ∧
    valueAt [[2]] [0] 0 = [2] ∧
    get_inject_function InjectMode.ACTION_NOISE (fun _ _ => 0) [0]
      (fun _ => 1) [[2]] [0] = ([[2], [1]], Except.ok [1]) ∧
    valueAt [[2], [1]] [1] 0 = [1] ∧ ([1] : Arr) ≠ [2] := by
  refine ⟨by decide, by norm_num [valueAt, hGet, refAt], ?_,
    by norm_num [valueAt, hGet, refAt], by norm_num⟩
  norm_num [get_inject_function, inject_noise_in_action, actionGo,
    addNoise, clipArr, npclip, hGet, refAt]

/-- C4 (amended): with noise magnitude zero every draw is zero, and then:
in observation-noise mode the injector returns its input exactly (same
references, heap untouched) for every input tuple and every valid in-range
target set; in action-noise mode the returned tuple is value-equal to its
input precisely on tuples whose targeted actions already lie within their
agents' control ranges — the clamp still runs, so out-of-range actions are
altered even with zero noise (hence the counterexample). -/
theorem c4_zero_noise_identity (noise_draw : Nat → Nat → ℚ)
    (hz : ∀ i k, noise_draw i k = 0) :
    (∀ (heap : Heap) (x : Refs) (agents_to_inject : List Nat)
        (u_range : Nat → ℚ),
      agents_to_inject.length ≤ x.length →
      (∀ i ∈ agents_to_inject, i < x.length) →
      get_inject_function InjectMode.OBS_NOISE noise_draw agents_to_inject
        u_range heap x = (heap, Except.ok x)) ∧
    (∀ (heap heap' : Heap) (x x' : Refs) (agents_to_inject : List Nat)
        (u_range : Nat → ℚ),
      (∀ p, p < x.length → refAt x p < heap.length) →
      (∀ p q, p < x.length → q < x.length → p ≠ q → refAt x p ≠ refAt x q) →
      agents_to_inject.Nodup →
      (∀ i ∈ agents_to_inject, ∀ v ∈ valueAt heap x i,
        -(u_range i) ≤ v ∧ v ≤ u_range i) →
      get_inject_function InjectMode.ACTION_NOISE noise_draw agents_to_inject
        u_range heap x = (heap', Except.ok x') →
      ∀ p, p < x.length → valueAt heap' x' p = valueAt heap x p) := by
  constructor
  · intro heap x agents u hle hin
    simp only [get_inject_function, inject_noise_in_observation, if_pos hle]
    exact obsGo_zero noise_draw hz agents heap x hin
  · intro heap heap' x x' agents u hV hN hnd hrange hok
    simp only [get_inject_function, inject_noise_in_action] at hok
    by_cases hle : agents.length ≤ x.length
    · rw [if_pos hle] at hok
      obtain ⟨_, _, hC, hD⟩ := actionGo_spec noise_draw u agents
        heap heap' x x' hV hN hnd hok
      intro p hp
      by_cases hpt : p ∈ agents
      · rw [hD p hpt, addNoise_zero _ _ (hz p), clipArr_id _ _ (hrange p hpt)]
      · obtain ⟨hc1, hc2⟩ := hC p hp hpt
        rw [valueAt, hc1]
        exact hc2
    · rw [if_neg hle] at hok
      simp at hok

/-- Witness for C4 (amended): one agent with observation `[3]`, target set
`{0}`, zero draws: the injector returns its input and heap unchanged. -/
theorem c4_witness :
    get_inject_function InjectMode.OBS_NOISE (fun _ _ => 0) [0] (fun _ => 1)
      [[3]] [0] = ([[3]], Except.ok [0]) :=
  (c4_zero_noise_identity (fun _ _ => 0) (fun _ _ => rfl)).1 [[3]] [0] [0]
    (fun _ => 1) (by decide) (by decide)

/-- C5: in either mode, the injector signals `InvalidTargetSet` (the failed
assert) exactly when the target set is larger than the tuple, and on that
path the heap is returned untouched — the assert runs before any mutation;
when the precondition holds, that error is never signaled. -/
theorem c5_invalid_target_set (inject_mode : InjectMode)
    (noise_draw : Nat → Nat → ℚ) (u_range : Nat → ℚ)
    (heap : Heap) (x : Refs) (agents_to_inject : List Nat) :
    (x.length < agents_to_inject.length →
      get_inject_function inject_mode noise_draw agents_to_inject u_range
        heap x = (heap, Except.error InjectError.invalidTargetSet)) ∧
    (agents_to_inject.length ≤ x.length →
      (get_inject_function inject_mode noise_draw agents_to_inject u_range
        heap x).2 ≠ Except.error InjectError.invalidTargetSet) := by
  constructor
  · intro hgt
    cases inject_mode <;>
      simp only [get_inject_function, inject_noise_in_action,
        inject_noise_in_observation, if_neg (Nat.not_le.mpr hgt)]
  · intro hle
    cases inject_mode with
    | ACTION_NOISE =>
      simp only [get_inject_function, inject_noise_in_action, if_pos hle]
      exact actionGo_no_invalid noise_draw u_range agents_to_inject heap x
    | OBS_NOISE =>
      simp only [get_inject_function, inject_noise_in_observation, if_pos hle]
      exact obsGo_no_invalid noise_draw agents_to_inject heap x

/-- Witness for C5: three targets against a two-agent tuple signal the
error with the heap unchanged; one target against the same tuple does
not. -/
theorem c5_witness :
    get_inject_function InjectMode.OBS_NOISE (fun _ _ => 1) [0, 1, 2]
      (fun _ => 1) [[0], [0]] [0, 1]
      = ([[0], [0]], Except.error InjectError.invalidTargetSet) ∧
    (get_inject_function InjectMode.OBS_NOISE (fun _ _ => 1) [0] (fun _ => 1)
      [[0], [0]] [0, 1]).2 ≠ Except.error InjectError.invalidTargetSet :=
  ⟨(c5_invalid_target_set InjectMode.OBS_NOISE (fun _ _ => 1) (fun _ => 1)
      [[0], [0]] [0, 1] [0, 1, 2]).1 (by decide),
   (c5_invalid_target_set InjectMode.OBS_NOISE (fun _ _ => 1) (fun _ => 1)
      [[0], [0]] [0, 1] [0]).2 (by decide)⟩

/-! ### The episode rollout loop of `EvaluationUtils.rollout_episodes`

The rollout works on plain values: at this level the environment, the
policy (`trainer.compute_single_action` or `action_callback`) and the
injection function built by `get_inject_function` are black-box
collaborators, modelled as function parameters.  `env_step t a` is the
response of the `t`-th `env.vector_step([a])` call of the episode (its
entry 0), `compute_action` the action-selection routine, and
`inject_function` the injector closure.  Rendering (`render`,
`frame_list`) is omitted: the claims do not touch frames. -/

structure EnvResponse where
  obs : List (List ℚ)
  reward : ℚ
  done : Bool
deriving DecidableEq

/-- Observable event of one loop iteration, in the order they happen. -/
inductive RollEvent
  | injectObs (before after : List (List ℚ))
  | logObs (o : List (List ℚ))
  | queryPolicy (o a : List (List ℚ))
  | injectAction (before after : List (List ℚ))
  | logAction (a : List (List ℚ))
  | envStep (a : List (List ℚ)) (reward : ℚ) (done : Bool)
deriving DecidableEq

/-- The per-episode mutable state of the `while not done` loop. -/
structure RollState where
  i : Nat
  observation : List (List ℚ)
  reward_sum : ℚ
  observations_this_episode : List (List (List ℚ))
  actions_this_episode : List (List (List ℚ))
deriving DecidableEq

/-- One iteration of the `while not done` loop of `rollout_episodes`:
increment `i`; inject the observation when injection is on in an
observation mode; log the (possibly perturbed) observation when `get_obs`;
query the policy on that observation; inject the action when injection is
on in an action mode; log the (possibly perturbed) action when
`get_actions`; step the environment with that action and accumulate the
reward.  Returns the new state, the `done` flag, and the event trace. -/
def loopIter (inject : Bool) (inject_mode : InjectMode)
    (get_obs get_actions : Bool)
    (inject_function : List (List ℚ) → List (List ℚ))
    (compute_action : List (List ℚ) → List (List ℚ))
    (env_step : Nat → List (List ℚ) → EnvResponse)
    (s : RollState) : RollState × Bool × List RollEvent :=
  let ob := s.observation
  let observation := if inject && inject_mode.is_obs then inject_function ob else ob
  let ev1 : List RollEvent :=
    if inject && inject_mode.is_obs then [RollEvent.injectObs ob observation] else []
  let obsLog :=
    if get_obs then s.observations_this_episode ++ [observation]
    else s.observations_this_episode
  let ev2 : List RollEvent := if get_obs then [RollEvent.logObs observation] else []
  let action0 := compute_action observation
  let action :=
    if inject && inject_mode.is_action then inject_function action0 else action0
  let ev4 : List RollEvent :=
    if inject && inject_mode.is_action then [RollEvent.injectAction action0 action]
    else []
  let actLog :=
    if get_actions then s.actions_this_episode ++ [action]
    else s.actions_this_episode
  let ev5 : List RollEvent := if get_actions then [RollEvent.logAction action] else []
  let resp := env_step s.i action
  ({ i := s.i + 1, observation := resp.obs,
     reward_sum := s.reward_sum + resp.reward,
     observations_this_episode := obsLog, actions_this_episode := actLog },
   resp.done,
   ev1 ++ ev2 ++ [RollEvent.queryPolicy observation action0] ++ ev4 ++ ev5 ++
     [RollEvent.envStep action resp.reward resp.done])

/-- The `while not done` loop: iterate until the environment reports done.
`fuel` bounds the iteration count (the environment's max-step budget
guarantees termination within it); `none` means the bound was exceeded. -/
def runEpisode (inject : Bool) (inject_mode : InjectMode)
    (get_obs get_actions : Bool)
    (inject_function : List (List ℚ) → List (List ℚ))
    (compute_action : List (List ℚ) → List (List ℚ))
    (env_step : Nat → List (List ℚ) → EnvResponse) :
    Nat → RollState → Option (RollState × List RollEvent)
  | 0, _ => none
  | fuel + 1, s =>
    let step := loopIter inject inject_mode get_obs get_actions inject_function
        compute_action env_step s
    if step.2.1 then some (step.1, step.2.2)
    else
      match runEpisode inject inject_mode get_obs get_actions inject_function
          compute_action env_step fuel step.1 with
      | none => none
      | some (s2, tr2) => some (s2, step.2.2 ++ tr2)

/-- The state right after `observation = env.vector_reset()[0]`:
`i = 0`, `reward_sum = 0`, empty logs. -/
def initState (obs0 : List (List ℚ)) : RollState :=
  { i := 0, observation := obs0, reward_sum := 0,
    observations_this_episode := [], actions_this_episode := [] }

/-- C6: in every iteration of the episode loop the operations happen in
exactly this order with this data flow: (1) when injection is on and the
mode targets observations, the observation is replaced by the injected one
before action selection; (2) the possibly-perturbed observation is logged
when collection is on; (3) the policy is queried on that observation;
(4) when injection is on and the mode targets actions, the action is
replaced by the injected one after selection; (5) the possibly-perturbed
action is logged when collection is on; (6) the environment is stepped
with that action and the returned reward is accumulated. -/
theorem c6_iteration_order (inject : Bool) (inject_mode : InjectMode)
    (get_obs get_actions : Bool)
    (inject_function compute_action : List (List ℚ) → List (List ℚ))
    (env_step : Nat → List (List ℚ) → EnvResponse) (s : RollState) :
    loopIter inject inject_mode get_obs get_actions inject_function
        compute_action env_step s =
      (let observation :=
        if inject && inject_mode.is_obs then inject_function s.observation
        else s.observation
      let action0 := compute_action observation
      let action :=
        if inject && inject_mode.is_action then inject_function action0
        else action0
      let resp := env_step s.i action
      ({ i := s.i + 1, observation := resp.obs,
         reward_sum := s.reward_sum + resp.reward,
         observations_this_episode :=
           if get_obs then s.observations_this_episode ++ [observation]
           else s.observations_this_episode,
         actions_this_episode :=
           if get_actions then s.actions_this_episode ++ [action]
           else s.actions_this_episode },
       resp.done,
       (if inject && inject_mode.is_obs
         then [RollEvent.injectObs s.observation observation] else []) ++
       (if get_obs then [RollEvent.logObs observation] else []) ++
       [RollEvent.queryPolicy observation action0] ++
       (if inject && inject_mode.is_action
         then [RollEvent.injectAction action0 action] else []) ++
       (if get_actions then [RollEvent.logAction action] else []) ++
       [RollEvent.envStep action resp.reward resp.done])) := rfl

/-- Effect of one loop iteration on the step counter and the log lengths. -/
theorem loopIter_fields (inject : Bool) (inject_mode : InjectMode)
    (get_obs get_actions : Bool)
    (inject_function compute_action : List (List ℚ) → List (List ℚ))
    (env_step : Nat → List (List ℚ) → EnvResponse) (s : RollState) :
    (loopIter inject inject_mode get_obs get_actions inject_function
        compute_action env_step s).1.i = s.i + 1 ∧
    (loopIter inject inject_mode get_obs get_actions inject_function
        compute_action env_step s).1.observations_this_episode.length =
      s.observations_this_episode.length + (if get_obs then 1 else 0) ∧
    (loopIter inject inject_mode get_obs get_actions inject_function
        compute_action env_step s).1.actions_this_episode.length =
      s.actions_this_episode.length + (if get_actions then 1 else 0) := by
  simp only [loopIter]
  cases get_obs <;> cases get_actions <;> simp

/-- The loop preserves the invariant that a log's length equals the step
counter whenever the corresponding collection flag is on. -/
theorem runEpisode_log_invariant (inject : Bool) (inject_mode : InjectMode)
    (get_obs get_actions : Bool)
    (inject_function compute_action : List (List ℚ) → List (List ℚ))
    (env_step : Nat → List (List ℚ) → EnvResponse) :
    ∀ (fuel : Nat) (s s' : RollState) (tr : List RollEvent),
    runEpisode inject inject_mode get_obs get_actions inject_function
        compute_action env_step fuel s = some (s', tr) →
    (get_obs = true → s.observations_this_episode.length = s.i →
      s'.observations_this_episode.length = s'.i) ∧
    (get_actions = true → s.actions_this_episode.length = s.i →
      s'.actions_this_episode.length = s'.i) := by
  intro fuel
  induction fuel with
  | zero =>
    intro s s' tr h
    simp [runEpisode] at h
  | succ fuel ih =>
    intro s s' tr h
    obtain ⟨hfi, hfo, hfa⟩ := loopIter_fields inject inject_mode get_obs
      get_actions inject_function compute_action env_step s
    simp only [runEpisode] at h
    by_cases hd : (loopIter inject inject_mode get_obs get_actions
        inject_function compute_action env_step s).2.1
    · rw [if_pos hd] at h
      injection h with h2
      rw [Prod.mk.injEq] at h2
      obtain ⟨hA, hB⟩ := h2
      subst hA
      constructor
      · intro hg hlen
        subst hg
        simp only [hfo, hfi]
        simp [hlen]
      · intro hg hlen
        subst hg
        simp only [hfa, hfi]
        simp [hlen]
    · rw [if_neg hd] at h
      rcases hrec : runEpisode inject inject_mode get_obs get_actions
          inject_function compute_action env_step fuel
          (loopIter inject inject_mode get_obs get_actions inject_function
            compute_action env_step s).1 with _ | ⟨s2, tr2⟩
      · rw [hrec] at h
        simp at h
      · rw [hrec] at h
        injection h with h2
        rw [Prod.mk.injEq] at h2
        obtain ⟨hA, hB⟩ := h2
        subst hA
        obtain ⟨ih1, ih2⟩ := ih _ s2 tr2 hrec
        constructor
        · intro hg hlen
          subst hg
          apply ih1 rfl
          simp only [hfo, hfi]
          simp [hlen]
        · intro hg hlen
          subst hg
          apply ih2 rfl
          simp only [hfa, hfi]
          simp [hlen]

/-- C7: when an episode started from the reset state terminates, the
collected observation (resp. action) log has exactly one entry per
environment step taken: its length equals the final step counter, for any
terminating run (any step count the environment's max-step bound allows). -/
theorem c7_log_length_equals_step_count (inject : Bool)
    (inject_mode : InjectMode) (get_obs get_actions : Bool)
    (inject_function compute_action : List (List ℚ) → List (List ℚ))
    (env_step : Nat → List (List ℚ) → EnvResponse)
    (obs0 : List (List ℚ)) (fuel : Nat) (s' : RollState) (tr : List RollEvent)
    (h : runEpisode inject inject_mode get_obs get_actions inject_function
        compute_action env_step fuel (initState obs0) = some (s', tr)) :
    (get_obs = true → s'.observations_this_episode.length = s'.i) ∧
    (get_actions = true → s'.actions_this_episode.length = s'.i) := by
  obtain ⟨h1, h2⟩ := runEpisode_log_invariant inject inject_mode get_obs
    get_actions inject_function compute_action env_step fuel (initState obs0)
    s' tr h
  exact ⟨fun hg => h1 hg rfl, fun hg => h2 hg rfl⟩

/-- Witness for C7: a one-step episode (environment reports done at the
first step) with both collection flags on: each log has length 1 and the
step counter is 1. -/
theorem c7_witness :
    ((true : Bool) = true →
      (RollState.mk 1 [] 0 [[]] [[]]).observations_this_episode.length =
        (RollState.mk 1 [] 0 [[]] [[]]).i) ∧
    ((true : Bool) = true →
      (RollState.mk 1 [] 0 [[]] [[]]).actions_this_episode.length =
        (RollState.mk 1 [] 0 [[]] [[]]).i) :=
  c7_log_length_equals_step_count false InjectMode.OBS_NOISE true true id id
    (fun _ _ => ⟨[], 0, true⟩) [] 1 (RollState.mk 1 [] 0 [[]] [[]])
    [RollEvent.logObs [], RollEvent.queryPolicy [] [], RollEvent.logAction [],
      RollEvent.envStep [] 0 true]
    (by simp [runEpisode, loopIter, initState, InjectMode.is_obs,
      InjectMode.is_action])

/-! ### The episode loop of `rollout_episodes` and the sweep of
`evaluate_increasing_noise` -/

/-- The `for j in range(n_episodes)` loop of `rollout_episodes`: reset the
environment (`obs0 k` is the reset observation of episode `k` and
`env_step k` that episode's stepping oracle), run the while-loop, and
collect the per-episode reward sums, observation logs and action logs in
order; `none` when some episode exceeds the fuel bound. -/
def rolloutGo (inject : Bool) (inject_mode : InjectMode)
    (get_obs get_actions : Bool)
    (inject_function compute_action : List (List ℚ) → List (List ℚ))
    (env_step : Nat → Nat → List (List ℚ) → EnvResponse)
    (obs0 : Nat → List (List ℚ)) (fuel : Nat) :
    Nat → Nat →
    Option (List ℚ × List (List (List (List ℚ))) × List (List (List (List ℚ))))
  | _, 0 => some ([], [], [])
  | k, n + 1 =>
    match runEpisode inject inject_mode get_obs get_actions inject_function
        compute_action (env_step k) fuel (initState (obs0 k)) with
    | none => none
    | some (s1, _) =>
      match rolloutGo inject inject_mode get_obs get_actions inject_function
          compute_action env_step obs0 fuel (k + 1) n with
      | none => none
      | some (rews, obsL, actL) =>
        some (s1.reward_sum :: rews, s1.observations_this_episode :: obsL,
          s1.actions_this_episode :: actL)

/-- `EvaluationUtils.rollout_episodes` (the parts the claims are about):
runs `n_episodes` episodes and returns the reward list and the observation
and action logs, the logs only when the corresponding flag is set
(mirroring `observations if get_obs else None`).  Rendering is omitted. -/
def rollout_episodes (n_episodes : Nat) (get_obs get_actions inject : Bool)
    (inject_mode : InjectMode)
    (inject_function compute_action : List (List ℚ) → List (List ℚ))
    (env_step : Nat → Nat → List (List ℚ) → EnvResponse)
    (obs0 : Nat → List (List ℚ)) (fuel : Nat) :
    Option (List ℚ × Option (List (List (List (List ℚ)))) ×
      Option (List (List (List (List ℚ))))) :=
  match rolloutGo inject inject_mode get_obs get_actions inject_function
      compute_action env_step obs0 fuel 0 n_episodes with
  | none => none
  | some (rews, obsL, actL) =>
    some (rews, if get_obs then some obsL else none,
      if get_actions then some actL else none)

/-- Sequentially evaluate `f start, f (start + 1), ..., f (start + n - 1)`,
collecting the results in order (the nested for-loops of the sweep). -/
def seqOpt {α : Type} (f : Nat → Option α) : Nat → Nat → Option (List α)
  | _, 0 => some []
  | start, n + 1 =>
    match f start, seqOpt f (start + 1) n with
    | some a, some l => some (a :: l)
    | _, _ => none

/-- `noises = np.linspace(0, 2, 50)`: the sweep grid of noise magnitudes. -/
def noises : List ℚ := (List.range 50).map (fun j => 2 * (j : ℚ) / 49)

/-- One cell of the sweep: the call `rollout_episodes(..., get_obs=True,
get_actions=False, inject=True, noise_delta=noises[j])` for policy `i` and
magnitude index `j`, recording the reward row and the early-termination row
`(len_obs < max_steps).astype(int)`.  `inject_function_at i j` stands for
the closure `get_inject_function` builds for magnitude `noises[j]` and
policy `i`'s environment. -/
def evalCell (n_episodes : Nat) (inject_mode : InjectMode)
    (inject_function_at : Nat → Nat → List (List ℚ) → List (List ℚ))
    (compute_action_at : Nat → List (List ℚ) → List (List ℚ))
    (env_step_at : Nat → Nat → Nat → Nat → List (List ℚ) → EnvResponse)
    (obs0_at : Nat → Nat → Nat → List (List ℚ))
    (max_steps : Nat → Nat) (fuel : Nat) (i j : Nat) :
    Option (List ℚ × List ℚ) :=
  match rollout_episodes n_episodes true false true inject_mode
      (inject_function_at i j) (compute_action_at i) (env_step_at i j)
      (obs0_at i j) fuel with
  | some (rews, some obsL, _) =>
    some (rews, obsL.map (fun o => if o.length < max_steps i then (1 : ℚ) else 0))
  | _ => none

/-- `evaluate_increasing_noise`: for every policy `i` and every magnitude
index `j` of the `noises` grid, run `n_episodes` episodes with injection on
and fill the 3-D reward and early-termination tensors
(`rewards[i, j, k]` and `done[i, j, k]`).  The source iterates `j` outer
and `i` inner while assigning `rewards[i, j]`; the cells are filled once
each and are independent, so building them row-by-row in `i` yields the
same tensors. -/
def evaluate_increasing_noise (n_models n_episodes : Nat)
    (inject_mode : InjectMode)
    (inject_function_at : Nat → Nat → List (List ℚ) → List (List ℚ))
    (compute_action_at : Nat → List (List ℚ) → List (List ℚ))
    (env_step_at : Nat → Nat → Nat → Nat → List (List ℚ) → EnvResponse)
    (obs0_at : Nat → Nat → Nat → List (List ℚ))
    (max_steps : Nat → Nat) (fuel : Nat) :
    Option (List (List (List ℚ)) × List (List (List ℚ))) :=
  match seqOpt (fun i => seqOpt (fun j => evalCell n_episodes inject_mode
      inject_function_at compute_action_at env_step_at obs0_at max_steps fuel
      i j) 0 noises.length) 0 n_models with
  | none => none
  | some cells =>
    some (cells.map (fun row => row.map Prod.fst),
      cells.map (fun row => row.map Prod.snd))

theorem seqOpt_spec {α : Type} (f : Nat → Option α) (d : α) :
    ∀ (n start : Nat) (l : List α), seqOpt f start n = some l →
    l.length = n ∧ ∀ m, m < n → f (start + m) = some (l.getD m d) := by
  intro n
  induction n with
  | zero =>
    intro start l h
    simp only [seqOpt, Option.some.injEq] at h
    subst h
    exact ⟨rfl, fun m hm => absurd hm (Nat.not_lt_zero m)⟩
  | succ n ih =>
    intro start l h
    simp only [seqOpt] at h
    rcases hf : f start with _ | a
    · rw [hf] at h
      simp at h
    · rw [hf] at h
      rcases hs : seqOpt f (start + 1) n with _ | l'
      · rw [hs] at h
        simp at h
      · rw [hs] at h
        injection h with h2
        subst h2
        obtain ⟨hlen, hall⟩ := ih (start + 1) l' hs
        refine ⟨by simp [hlen], ?_⟩
        intro m hm
        cases m with
        | zero => simpa using hf
        | succ m' =>
          have hmain := hall m' (by omega)
          rw [show start + (m' + 1) = start + 1 + m' by omega]
          simpa using hmain

theorem rolloutGo_spec (inject : Bool) (inject_mode : InjectMode)
    (get_obs get_actions : Bool)
    (inject_function compute_action : List (List ℚ) → List (List ℚ))
    (env_step : Nat → Nat → List (List ℚ) → EnvResponse)
    (obs0 : Nat → List (List ℚ)) (fuel : Nat) :
    ∀ (n k : Nat) (rews : List ℚ) (obsL actL : List (List (List (List ℚ)))),
    rolloutGo inject inject_mode get_obs get_actions inject_function
        compute_action env_step obs0 fuel k n = some (rews, obsL, actL) →
    rews.length = n ∧ obsL.length = n ∧ actL.length = n ∧
    ∀ m, m < n → ∃ s1 tr,
      runEpisode inject inject_mode get_obs get_actions inject_function
          compute_action (env_step (k + m)) fuel (initState (obs0 (k + m)))
        = some (s1, tr) ∧
      rews.getD m 0 = s1.reward_sum ∧
      obsL.getD m [] = s1.observations_this_episode ∧
      actL.getD m [] = s1.actions_this_episode := by
  intro n
  induction n with
  | zero =>
    intro k rews obsL actL h
    simp only [rolloutGo, Option.some.injEq, Prod.mk.injEq] at h
    obtain ⟨h1, h2, h3⟩ := h
    subst h1
    subst h2
    subst h3
    exact ⟨rfl, rfl, rfl, fun m hm => absurd hm (Nat.not_lt_zero m)⟩
  | succ n ih =>
    intro k rews obsL actL h
    simp only [rolloutGo] at h
    rcases hep : runEpisode inject inject_mode get_obs get_actions
        inject_function compute_action (env_step k) fuel (initState (obs0 k))
      with _ | ⟨s1, tr⟩
    · rw [hep] at h
      simp at h
    · rw [hep] at h
      rcases hgo : rolloutGo inject inject_mode get_obs get_actions
          inject_function compute_action env_step obs0 fuel (k + 1) n
        with _ | ⟨rews', obsL', actL'⟩
      · rw [hgo] at h
        simp at h
      · rw [hgo] at h
        simp only [Option.some.injEq, Prod.mk.injEq] at h
        obtain ⟨h1, h2, h3⟩ := h
        subst h1
        subst h2
        subst h3
        obtain ⟨hl1, hl2, hl3, hall⟩ := ih (k + 1) rews' obsL' actL' hgo
        refine ⟨by simp [hl1], by simp [hl2], by simp [hl3], ?_⟩
        intro m hm
        cases m with
        | zero =>
          refine ⟨s1, tr, by simpa using hep, by simp, by simp, by simp⟩
        | succ m' =>
          obtain ⟨s2, tr2, hrun, ha, hb, hc⟩ := hall m' (by omega)
          refine ⟨s2, tr2, ?_, by simpa using ha, by simpa using hb,
            by simpa using hc⟩
          rw [show k + (m' + 1) = k + 1 + m' by omega]
          exact hrun

theorem evalCell_spec (n_episodes : Nat) (inject_mode : InjectMode)
    (inject_function_at : Nat → Nat → List (List ℚ) → List (List ℚ))
    (compute_action_at : Nat → List (List ℚ) → List (List ℚ))
    (env_step_at : Nat → Nat → Nat → Nat → List (List ℚ) → EnvResponse)
    (obs0_at : Nat → Nat → Nat → List (List ℚ))
    (max_steps : Nat → Nat) (fuel : Nat) (i j : Nat)
    (cr cd : List ℚ)
    (h : evalCell n_episodes inject_mode inject_function_at compute_action_at
        env_step_at obs0_at max_steps fuel i j = some (cr, cd)) :
    cr.length = n_episodes ∧ cd.length = n_episodes ∧
    ∀ k, k < n_episodes → ∃ s1 tr,
      runEpisode true inject_mode true false (inject_function_at i j)
          (compute_action_at i) (env_step_at i j k) fuel
          (initState (obs0_at i j k)) = some (s1, tr) ∧
      cr.getD k 0 = s1.reward_sum ∧
      cd.getD k 0 =
        (if s1.observations_this_episode.length < max_steps i then 1 else 0) := by
  simp only [evalCell, rollout_episodes] at h
  rcases hgo : rolloutGo true inject_mode true false (inject_function_at i j)
      (compute_action_at i) (env_step_at i j) (obs0_at i j) fuel 0 n_episodes
    with _ | ⟨rews, obsL, actL⟩
  · rw [hgo] at h
    simp at h
  · rw [hgo] at h
    simp only [if_true, Option.some.injEq, Prod.mk.injEq] at h
    obtain ⟨h1, h2⟩ := h
    subst h1
    subst h2
    obtain ⟨hl1, hl2, _, hall⟩ := rolloutGo_spec true inject_mode true false
      (inject_function_at i j) (compute_action_at i) (env_step_at i j)
      (obs0_at i j) fuel n_episodes 0 rews obsL actL hgo
    refine ⟨hl1, by simp [hl2], ?_⟩
    intro k hk
    obtain ⟨s1, tr, hrun, ha, hb, _⟩ := hall k hk
    refine ⟨s1, tr, by simpa using hrun, ha, ?_⟩
    rw [getD_map_lt _ obsL k [] 0 (by omega), hb]

/-- C8: whenever the noise sweep returns its tensors, then for every policy
index `i`, every magnitude index `j` of the sweep grid and every episode
index `k`: the episode was run by the rollout loop with injection ON
(`inject = true`), `rewards[i][j][k]` holds that episode's accumulated
total reward, and `done[i][j][k]` equals 1 if the episode's step count is
strictly below the environment's configured maximum step count and 0
otherwise — so it equals 1 exactly when the episode terminated early. -/
theorem c8_sweep_tensors (n_models n_episodes : Nat) (inject_mode : InjectMode)
    (inject_function_at : Nat → Nat → List (List ℚ) → List (List ℚ))
    (compute_action_at : Nat → List (List ℚ) → List (List ℚ))
    (env_step_at : Nat → Nat → Nat → Nat → List (List ℚ) → EnvResponse)
    (obs0_at : Nat → Nat → Nat → List (List ℚ))
    (max_steps : Nat → Nat) (fuel : Nat)
    (rewards donef : List (List (List ℚ)))
    (h : evaluate_increasing_noise n_models n_episodes inject_mode
        inject_function_at compute_action_at env_step_at obs0_at max_steps
        fuel = some (rewards, donef))
    (i j k : Nat) (hi : i < n_models) (hj : j < noises.length)
    (hk : k < n_episodes) :
    ∃ s1 tr,
      runEpisode true inject_mode true false (inject_function_at i j)
          (compute_action_at i) (env_step_at i j k) fuel
          (initState (obs0_at i j k)) = some (s1, tr) ∧
      ((rewards.getD i []).getD j []).getD k 0 = s1.reward_sum ∧
      (((donef.getD i []).getD j []).getD k 0 = 1 ↔ s1.i < max_steps i) ∧
      (((donef.getD i []).getD j []).getD k 0 = 1 ∨
        ((donef.getD i []).getD j []).getD k 0 = 0) := by
  simp only [evaluate_increasing_noise] at h
  rcases hcells : seqOpt (fun i => seqOpt (fun j => evalCell n_episodes
      inject_mode inject_function_at compute_action_at env_step_at obs0_at
      max_steps fuel i j) 0 noises.length) 0 n_models with _ | cells
  · rw [hcells] at h
    simp at h
  · rw [hcells] at h
    simp only [Option.some.injEq, Prod.mk.injEq] at h
    obtain ⟨hR, hD⟩ := h
    subst hR
    subst hD
    obtain ⟨hclen, hcall⟩ := seqOpt_spec _ ([] : List (List ℚ × List ℚ))
      n_models 0 cells hcells
    have hrow := hcall i hi
    rw [Nat.zero_add] at hrow
    obtain ⟨hrlen, hrall⟩ := seqOpt_spec _ (([], []) : List ℚ × List ℚ)
      noises.length 0 (cells.getD i []) hrow
    have hcell := hrall j hj
    rw [Nat.zero_add] at hcell
    rcases hpair : (cells.getD i []).getD j ([], []) with ⟨cr, cd⟩
    rw [hpair] at hcell
    obtain ⟨hcr, hcd, hkall⟩ := evalCell_spec n_episodes inject_mode
      inject_function_at compute_action_at env_step_at obs0_at max_steps fuel
      i j cr cd hcell
    obtain ⟨s1, tr, hrun, ha, hb⟩ := hkall k hk
    have hobs : s1.observations_this_episode.length = s1.i :=
      (runEpisode_log_invariant true inject_mode true false
        (inject_function_at i j) (compute_action_at i) (env_step_at i j k)
        fuel (initState (obs0_at i j k)) s1 tr hrun).1 rfl rfl
    have hRe : ((cells.map (fun row => row.map Prod.fst)).getD i []).getD j []
        = cr := by
      rw [getD_map_lt _ cells i [] [] (by omega),
        getD_map_lt _ (cells.getD i []) j ([], []) [] (by omega), hpair]
    have hDe : ((cells.map (fun row => row.map Prod.snd)).getD i []).getD j []
        = cd := by
      rw [getD_map_lt _ cells i [] [] (by omega),
        getD_map_lt _ (cells.getD i []) j ([], []) [] (by omega), hpair]
    refine ⟨s1, tr, hrun, ?_, ?_, ?_⟩
    · rw [hRe]
      exact ha
    · rw [hDe, hb, hobs]
      by_cases hlt : s1.i < max_steps i
      · simp [hlt]
      · simp only [if_neg hlt]
        constructor
        · intro h0
          exact absurd h0 (by norm_num)
        · intro h0
          exact absurd h0 hlt
    · rw [hDe, hb]
      by_cases hlt : s1.observations_this_episode.length < max_steps i
      · left
        simp [hlt]
      · right
        simp [hlt]

/-- Witness for C8: one policy, one episode per cell, an environment that
reports done at the first step (step count 1, maximum 2, so every episode
terminates early): every tensor entry at (0, 0, 0) matches. -/
theorem c8_witness :
    ∃ s1 tr,
      runEpisode true InjectMode.OBS_NOISE true false (fun x => x)
          (fun o => o) (fun _ _ => EnvResponse.mk [] 0 true) 1 (initState [])
        = some (s1, tr) ∧
      ((([List.replicate 50 [(0 : ℚ) + 0]] :
          List (List (List ℚ))).getD 0 []).getD 0 []).getD 0 0
        = s1.reward_sum ∧
      (((([List.replicate 50 [(1 : ℚ)]] :
          List (List (List ℚ))).getD 0 []).getD 0 []).getD 0 0 = 1 ↔
        s1.i < 2) ∧
      (((([List.replicate 50 [(1 : ℚ)]] :
          List (List (List ℚ))).getD 0 []).getD 0 []).getD 0 0 = 1 ∨
        ((([List.replicate 50 [(1 : ℚ)]] :
          List (List (List ℚ))).getD 0 []).getD 0 []).getD 0 0 = 0) :=
  c8_sweep_tensors 1 1 InjectMode.OBS_NOISE (fun _ _ x => x) (fun _ o => o)
    (fun _ _ _ _ _ => EnvResponse.mk [] 0 true) (fun _ _ _ => [])
    (fun _ => 2) 1 [List.replicate 50 [(0 : ℚ) + 0]]
    [List.replicate 50 [(1 : ℚ)]] rfl 0 0 0 (by decide) (by decide)
    (by decide)

/-! ### The aggregation helpers of `evaluate_resiliance.py` -/

/-- Sortedness of a reward list (the code aggregates after
`rewards = sorted(rewards)`). -/
def isSorted : List ℚ → Bool
  | [] => true
  | [_] => true
  | a :: b :: t => if a ≤ b then isSorted (b :: t) else false

/-- `np.percentile(vals, p)` with the default linear interpolation, on a
sorted sample: with `h = (len - 1) * p / 100`, interpolate between the
values at positions `floor h` and `ceil h`. -/
def percentile (vals : List ℚ) (p : ℚ) : ℚ :=
  let h : ℚ := ((vals.length : ℚ) - 1) * (p / 100)
  let lo := vals.getD (⌊h⌋.toNat) 0
  let hi := vals.getD (⌈h⌉.toNat) 0
  lo + (h - (⌊h⌋ : ℚ)) * (hi - lo)

/-- `adjacent_values(vals, q1, q3)`: the Tukey-style whisker bounds, with
`np.clip` exactly as in the source (upper computed first, then lower). -/
def adjacent_values (vals : List ℚ) (q1 q3 : ℚ) : ℚ × ℚ :=
  let upper_adjacent_value :=
    npclip (q3 + (q3 - q1) * 1.5) q3 (vals.getD (vals.length - 1) 0)
  let lower_adjacent_value :=
    npclip (q1 - (q3 - q1) * 1.5) (vals.getD 0 0) q1
  (lower_adjacent_value, upper_adjacent_value)

theorem isSorted_tail (a : ℚ) (t : List ℚ) (h : isSorted (a :: t) = true) :
    isSorted t = true := by
  cases t with
  | nil => rfl
  | cons b t' =>
    simp only [isSorted] at h
    by_cases hab : a ≤ b
    · rwa [if_pos hab] at h
    · rw [if_neg hab] at h
      exact absurd h (by simp)

theorem isSorted_head_le : ∀ (t : List ℚ) (a : ℚ),
    isSorted (a :: t) = true → ∀ j, j < t.length → a ≤ t.getD j 0 := by
  intro t
  induction t with
  | nil =>
    intro a _ j hj
    simp at hj
  | cons b t' ih =>
    intro a h j hj
    have hab : a ≤ b := by
      simp only [isSorted] at h
      by_cases hab : a ≤ b
      · exact hab
      · rw [if_neg hab] at h
        exact absurd h (by simp)
    have hbt : isSorted (b :: t') = true := by
      simp only [isSorted] at h
      by_cases hab2 : a ≤ b
      · rwa [if_pos hab2] at h
      · rw [if_neg hab2] at h
        exact absurd h (by simp)
    cases j with
    | zero => simpa using hab
    | succ j' =>
      simp only [List.getD_cons_succ]
      exact le_trans hab (ih b hbt j' (by simpa using hj))

theorem isSorted_getD_mono : ∀ (l : List ℚ), isSorted l = true →
    ∀ i j, i ≤ j → j < l.length → l.getD i 0 ≤ l.getD j 0 := by
  intro l
  induction l with
  | nil =>
    intro _ i j _ hj
    simp at hj
  | cons a t ih =>
    intro h i j hij hj
    cases i with
    | zero =>
      cases j with
      | zero => simp
      | succ j' =>
        simp only [List.getD_cons_zero, List.getD_cons_succ]
        exact isSorted_head_le t a h j' (by simpa using hj)
    | succ i' =>
      cases j with
      | zero => omega
      | succ j' =>
        simp only [List.getD_cons_succ]
        exact ih (isSorted_tail a t h) i' j' (by omega) (by simpa using hj)

/-- On a sorted non-empty sample, any percentile with `0 ≤ p ≤ 100` is at
most the largest value. -/
theorem percentile_le_last (vals : List ℚ) (p : ℚ)
    (hs : isSorted vals = true) (hne : vals ≠ [])
    (hp0 : 0 ≤ p) (hp1 : p ≤ 100) :
    percentile vals p ≤ vals.getD (vals.length - 1) 0 := by
  have hn : 1 ≤ vals.length := List.length_pos.mpr hne
  have hn1 : (0 : ℚ) ≤ (vals.length : ℚ) - 1 := by
    have : (1 : ℚ) ≤ (vals.length : ℚ) := by exact_mod_cast hn
    linarith
  have key : ∀ hq : ℚ, 0 ≤ hq → hq ≤ (vals.length : ℚ) - 1 →
      vals.getD (⌊hq⌋.toNat) 0 +
        (hq - (⌊hq⌋ : ℚ)) *
          (vals.getD (⌈hq⌉.toNat) 0 - vals.getD (⌊hq⌋.toNat) 0) ≤
      vals.getD (vals.length - 1) 0 := by
    intro hq h0 h1
    have hfl0 : (0 : ℤ) ≤ ⌊hq⌋ := by
      rw [Int.le_floor]
      exact_mod_cast h0
    have hceil : ⌈hq⌉ ≤ (vals.length : ℤ) - 1 := by
      rw [Int.ceil_le]
      push_cast
      exact h1
    have hfc : ⌊hq⌋ ≤ ⌈hq⌉ := Int.floor_le_ceil hq
    have hceil_lt : ⌈hq⌉.toNat < vals.length := by omega
    have hfl_le : ⌊hq⌋.toNat ≤ ⌈hq⌉.toNat := by omega
    have hceil_le : ⌈hq⌉.toNat ≤ vals.length - 1 := by omega
    have hlohi : vals.getD (⌊hq⌋.toNat) 0 ≤ vals.getD (⌈hq⌉.toNat) 0 :=
      isSorted_getD_mono vals hs _ _ hfl_le hceil_lt
    have hhilast : vals.getD (⌈hq⌉.toNat) 0 ≤ vals.getD (vals.length - 1) 0 :=
      isSorted_getD_mono vals hs _ _ hceil_le (by omega)
    have hfrac0 : 0 ≤ hq - (⌊hq⌋ : ℚ) := by
      have := Int.floor_le hq
      linarith
    have hfrac1 : hq - (⌊hq⌋ : ℚ) ≤ 1 := by
      have := Int.lt_floor_add_one hq
      linarith
    have hstep := mul_le_mul_of_nonneg_right hfrac1 (sub_nonneg.mpr hlohi)
    rw [one_mul] at hstep
    linarith
  have hE0 : 0 ≤ ((vals.length : ℚ) - 1) * (p / 100) :=
    mul_nonneg hn1 (div_nonneg hp0 (by norm_num))
  have hE1 : ((vals.length : ℚ) - 1) * (p / 100) ≤ (vals.length : ℚ) - 1 := by
    have hdiv1 : p / 100 ≤ 1 := by
      rw [div_le_one (by norm_num : (0 : ℚ) < 100)]
      exact hp1
    calc ((vals.length : ℚ) - 1) * (p / 100)
        ≤ ((vals.length : ℚ) - 1) * 1 := mul_le_mul_of_nonneg_left hdiv1 hn1
      _ = (vals.length : ℚ) - 1 := mul_one _
  simp only [percentile]
  exact key (((vals.length : ℚ) - 1) * (p / 100)) hE0 hE1

/-- C9: for every sorted non-empty reward list with `q1` and `q3` its 25th
and 75th percentiles, `adjacent_values` returns
`lower = clip(q1 - 1.5*(q3-q1), vals[0], q1)` and
`upper = clip(q3 + 1.5*(q3-q1), q3, vals[-1])`; the bounds satisfy
`lower ≤ q1` and `upper ≥ q3`; and on the rewards `[10, 20, 30, 40, 50]`
the percentile computation yields Q1 = 20, median = 30, Q3 = 40. -/
theorem c9_adjacent_values (vals : List ℚ) (q1 q3 : ℚ)
    (hs : isSorted vals = true) (hne : vals ≠ [])
    (h1 : q1 = percentile vals 25) (h3 : q3 = percentile vals 75) :
    adjacent_values vals q1 q3 =
      (npclip (q1 - (q3 - q1) * 1.5) (vals.getD 0 0) q1,
       npclip (q3 + (q3 - q1) * 1.5) q3 (vals.getD (vals.length - 1) 0)) ∧
    (adjacent_values vals q1 q3).1 ≤ q1 ∧
    q3 ≤ (adjacent_values vals q1 q3).2 ∧
    percentile [10, 20, 30, 40, 50] 25 = 20 ∧
    percentile [10, 20, 30, 40, 50] 50 = 30 ∧
    percentile [10, 20, 30, 40, 50] 75 = 40 := by
  have hlast : q3 ≤ vals.getD (vals.length - 1) 0 := by
    rw [h3]
    exact percentile_le_last vals 75 hs hne (by norm_num) (by norm_num)
  refine ⟨rfl, ?_, ?_, ?_, ?_, ?_⟩
  · exact min_le_left _ _
  · exact le_min hlast (le_max_right _ _)
  · norm_num [percentile]
  · norm_num [percentile]
    decide
  · norm_num [percentile]
    decide

/-- Witness for C9: the concrete reward list `[10, 20, 30, 40, 50]` with
its quartiles Q1 = 20 and Q3 = 40. -/
theorem c9_witness :
    adjacent_values [10, 20, 30, 40, 50] 20 40 =
      (npclip (20 - (40 - 20) * 1.5) (([10, 20, 30, 40, 50] :
          List ℚ).getD 0 0) 20,
       npclip (40 + (40 - 20) * 1.5) 40 (([10, 20, 30, 40, 50] :
          List ℚ).getD (([10, 20, 30, 40, 50] : List ℚ).length - 1) 0)) ∧
    (adjacent_values [10, 20, 30, 40, 50] 20 40).1 ≤ 20 ∧
    (40 : ℚ) ≤ (adjacent_values [10, 20, 30, 40, 50] 20 40).2 ∧
    percentile [10, 20, 30, 40, 50] 25 = 20 ∧
    percentile [10, 20, 30, 40, 50] 50 = 30 ∧
    percentile [10, 20, 30, 40, 50] 75 = 40 :=
  c9_adjacent_values [10, 20, 30, 40, 50] 20 40 (by decide) (by simp)
    (by norm_num [percentile]) (by norm_num [percentile] <;> decide)
